import Mathlib

/-!
# Verification of the ASMR job-orchestration engine (`src/app.py`)

Shallow embedding of the core of `app.py`: the render worker
(`process_asmr_video`), its ffmpeg progress/ETA parsing, the SQLite job
table transitions, and the background upload scheduler (`scheduler_loop`).

Machine arithmetic: the Python code computes progress and ETA with CPython
`int` and IEEE-754 double (`float`) arithmetic.  Doubles are modelled
exactly as rationals together with round-to-nearest-even at 53 significant
bits (`toDouble`); each Python float operation is the exact rational
operation followed by this rounding, which is precisely the IEEE-754
semantics of `+`, `-`, `*`, `/` on in-range values (all values arising in
the claims are well inside the normal range, so overflow and subnormals do
not occur and are not modelled).
-/

/-- Number of halving steps to reach `0`, fuel-driven so that it reduces in
the kernel.  `bitsAux fuel n` is the bit length of `n` provided `n ≤ fuel`. -/
def bitsAux : ℕ → ℕ → ℕ
  | 0, _ => 0
  | fuel + 1, n => if n = 0 then 0 else bitsAux fuel (n / 2) + 1

/-- Bit length of a natural number: `bits 0 = 0` and
`2 ^ (bits n - 1) ≤ n < 2 ^ bits n` for `0 < n`. -/
def bits (n : ℕ) : ℕ := bitsAux n n

/-- Multiply a rational by `2 ^ k` for `k : ℤ`, written with `ℕ`-powers so
that it evaluates by kernel reduction. -/
def qshift (q : ℚ) (k : ℤ) : ℚ :=
  if 0 ≤ k then q * ((2 ^ k.toNat : ℕ) : ℚ) else q / ((2 ^ (-k).toNat : ℕ) : ℚ)

/-- Round a rational to the nearest integer, ties to even
(the IEEE-754 default rounding of the significand). -/
def rne (m : ℚ) : ℤ :=
  if m - ⌊m⌋ < 1/2 then ⌊m⌋
  else if 1/2 < m - ⌊m⌋ then ⌊m⌋ + 1
  else if ⌊m⌋ % 2 = 0 then ⌊m⌋ else ⌊m⌋ + 1

/-- `⌊log₂ q⌋` for a positive rational, computed from bit lengths. -/
def floorLog2 (q : ℚ) : ℤ :=
  let d : ℤ := (bits q.num.toNat : ℤ) - (bits q.den : ℤ)
  if qshift 1 d ≤ q then d else d - 1

/-- Round a positive rational to the nearest IEEE-754 double
(53-bit significand, no overflow/subnormal handling). -/
def toDoublePos (q : ℚ) : ℚ :=
  let e : ℤ := floorLog2 q - 52
  qshift ((rne (qshift q (-e)) : ℤ) : ℚ) e

/-- Round a rational to the nearest IEEE-754 double. -/
def toDouble (q : ℚ) : ℚ :=
  if q = 0 then 0 else if 0 < q then toDoublePos q else -toDoublePos (-q)

/-- Python float division (`a / b` on doubles): exact quotient, correctly
rounded. -/
def pyDiv (a b : ℚ) : ℚ := toDouble (a / b)

/-- Python float multiplication. -/
def pyMul (a b : ℚ) : ℚ := toDouble (a * b)

/-- Python float addition. -/
def pyAdd (a b : ℚ) : ℚ := toDouble (a + b)

/-- Python float subtraction. -/
def pySub (a b : ℚ) : ℚ := toDouble (a - b)

/-- Python `int(x)`: truncation toward zero. -/
def pyInt (q : ℚ) : ℤ := if q < 0 then ⌈q⌉ else ⌊q⌋

/-- `min(int((current_sec / target_duration_sec) * 100), 99)`
(app.py line 289), in exact IEEE-754 double semantics. -/
def pyPercent (cur target : ℕ) : ℤ :=
  min (pyInt (pyMul (pyDiv (cur : ℚ) (target : ℚ)) 100)) 99

/-!
## Progress-line parsing

`app.py` line 280 compiles `time=(\d{2}):(\d{2}):(\d{2})\.\d{2}` and runs
`re.search` on each line of ffmpeg's stderr (lines 282-285).  We model a
line as its list of characters and implement the exact leftmost search of
this fixed pattern.  `\d` is modelled as the ASCII digits `0`-`9` (ffmpeg's
diagnostic output is ASCII).
-/

/-- Numeric value of an ASCII digit character. -/
def digitVal (c : Char) : ℕ := c.toNat - 48

/-- Try to match `time=(\d{2}):(\d{2}):(\d{2})\.\d{2}` at the head of the
character list, returning the three captured two-digit groups. -/
def matchTimeAt : List Char → Option (ℕ × ℕ × ℕ)
  | c1 :: c2 :: c3 :: c4 :: c5 :: h1 :: h2 :: c6 :: m1 :: m2 :: c7
      :: s1 :: s2 :: c8 :: f1 :: f2 :: _ =>
    if c1 = 't' ∧ c2 = 'i' ∧ c3 = 'm' ∧ c4 = 'e' ∧ c5 = '=' ∧ c6 = ':'
        ∧ c7 = ':' ∧ c8 = '.'
        ∧ h1.isDigit ∧ h2.isDigit ∧ m1.isDigit ∧ m2.isDigit ∧ s1.isDigit
        ∧ s2.isDigit ∧ f1.isDigit ∧ f2.isDigit then
      some (10 * digitVal h1 + digitVal h2,
            10 * digitVal m1 + digitVal m2,
            10 * digitVal s1 + digitVal s2)
    else none
  | _ => none

/-- `re.search` for the time pattern: first position (left to right) where
the pattern matches. -/
def searchTime : List Char → Option (ℕ × ℕ × ℕ)
  | [] => none
  | c :: rest =>
    match matchTimeAt (c :: rest) with
    | some r => some r
    | none => searchTime rest

/-- `current_sec = h * 3600 + m * 60 + s` (app.py line 286) for a line with
a parseable time token; `none` when the pattern does not match. -/
def lineCur (line : String) : Option ℕ :=
  (searchTime line.data).map fun g => 3600 * g.1 + 60 * g.2.1 + g.2.2

/-- One `(percent, eta)` update pushed to the job store by
`update_job_progress` inside the stderr loop (app.py lines 288-302).
The DB stores the ETA as a formatted text label built from `speed`,
`remaining` and the wall-clock ETA instant; we record those numeric
components (the claims only constrain them, not the formatting). -/
structure Push where
  percent : ℤ
  speed : ℚ
  remaining : ℚ
  eta : ℚ
  deriving DecidableEq, Repr

/-- Processing of one stderr line (app.py lines 282-302): parse the time
token; if present compute `progress`; compute the wall-clock `elapsed`;
and only when `current_sec > 0` compute speed/remaining/ETA and push.
`clockAt`/`nowAt` are the values of `time.time()` and
`datetime.datetime.now()` observed while handling this line, and `startT`
is `start_time` (line 276); all are external clock readings. -/
def linePush (target : ℕ) (startT clockAt nowAt : ℚ) (line : String) :
    Option Push :=
  match lineCur line with
  | Option.none => Option.none
  | Option.some cur =>
    let progress := pyPercent cur target
    let elapsed := pySub clockAt startT
    if 0 < cur then
      let speed := pyDiv (cur : ℚ) elapsed
      let remaining := pyDiv ((target : ℚ) - (cur : ℚ)) speed
      Option.some ⟨progress, speed, remaining, pyAdd nowAt remaining⟩
    else Option.none

/-- The sequence of progress pushes produced by the whole stderr stream, in
order.  `clock i` and `now i` are the clock readings while handling the
`i`-th line. -/
def renderPushesAux (target : ℕ) (startT : ℚ) (clock now : ℕ → ℚ) :
    ℕ → List String → List Push
  | _, [] => []
  | i, l :: ls =>
    match linePush target startT (clock i) (now i) l with
    | Option.some p => p :: renderPushesAux target startT clock now (i + 1) ls
    | Option.none => renderPushesAux target startT clock now (i + 1) ls

/-- All `(percent, eta)` updates pushed during the render loop. -/
def renderPushes (target : ℕ) (startT : ℚ) (clock now : ℕ → ℚ)
    (lines : List String) : List Push :=
  renderPushesAux target startT clock now 0 lines

/-!
## Job records and the database layer

One row of the `jobs` table (`init_db`, app.py lines 46-67), restricted to
the fields the orchestration core reads or writes.  `logs` is modelled as
the list of appended messages: `update_job_status` (lines 112-119) only
ever concatenates `"\n[timestamp] msg"` onto the previous content, so the
column is faithfully represented by the ordered message list (the
timestamp prefixes are wall-clock readings and are elided).  The `eta_text`
column is a formatted presentation of the pushed ETA and is not modelled
at the row level (see `Push`).
-/

inductive RenderStatus
  | pending | rendering | success | failed
  deriving DecidableEq, Repr

inductive UploadStatus
  | idle | waiting_schedule | uploading | success | failed
  deriving DecidableEq, Repr

structure Job where
  id : ℕ
  video_path : String
  audio_path : String
  scheduled_at : ℤ
  status_render : RenderStatus
  status_upload : UploadStatus
  youtube_id : Option String
  output_path : Option String
  logs : List String
  progress : ℤ
  deriving DecidableEq, Repr

/-- A fresh row as inserted by `add_job` (app.py lines 84-87):
`status_render='pending'`, `status_upload='idle'`, `progress=0`. -/
def add_job (i : ℕ) (v a : String) (sched : ℤ) : Job :=
  ⟨i, v, a, sched, RenderStatus.pending, UploadStatus.idle,
    Option.none, Option.none, [], 0⟩

/-- The `WHERE status_render = 'success' AND status_upload =
'waiting_schedule'` filter of `get_ready_to_upload_jobs`
(app.py line 146). -/
def readyFilter (j : Job) : Bool :=
  j.status_render = RenderStatus.success
    ∧ j.status_upload = UploadStatus.waiting_schedule

/-!
## RenderWorker: `process_asmr_video` (app.py lines 225-321)

The environment of one invocation: whether `shutil.which("ffmpeg")` finds
the encoder, whether `check_nvidia_gpu()` succeeds, the stderr lines the
spawned process emits, its exit code, and the clock readings.  The
function is deterministic given this environment.
-/

structure RenderEnv where
  ffmpeg_present : Bool
  has_gpu : Bool
  stderr_lines : List String
  returncode : ℤ
  start_time : ℚ
  clock : ℕ → ℚ
  now : ℕ → ℚ
  epoch : ℤ

/-- `encoding_msg` (app.py lines 234/238). -/
def encoding_msg (has_gpu : Bool) : String :=
  if has_gpu then "🚀 GPU Detected (NVIDIA)." else "🐢 No GPU detected (CPU)."

/-- The output artifact path `os.path.join(OUTPUT_DIR, filename)` with
`filename = f"asmr_{job_id}_{int(time.time())}.mp4"` (lines 243-244). -/
def output_full_path (job_id : ℕ) (epoch : ℤ) : String :=
  "outputs/asmr_" ++ toString job_id ++ "_" ++ toString epoch ++ ".mp4"

/-- Apply one progress push to the row (`update_job_progress`,
app.py lines 128-134). -/
def applyPush (j : Job) (p : Push) : Job := { j with progress := p.percent }


/-!
## Encoder command construction (app.py lines 242-273)
-/

/-- The `watermark_mode` column.  The spec's data model names the fourth
value `zoom_top_left`; the stored string in `app.py` is `'zoom_tl'`
(UI selectbox, line 392; branch at line 257). -/
inductive WatermarkMode
  | none | crop_only | blur | zoom_tl
  deriving DecidableEq, Repr

/-- The `video_filters` list built at lines 252-258.  Note the
`zoom_tl` branch appends a single comma-joined string. -/
def video_filters : WatermarkMode → List String
  | WatermarkMode.crop_only => ["crop=in_w:in_h-86:0:0"]
  | WatermarkMode.blur => ["delogo=x=0:y=h-86:w=w:h=86"]
  | WatermarkMode.zoom_tl =>
      ["crop=in_w-150:in_h-86:0:0,scale=1920:1080:flags=lanczos"]
  | WatermarkMode.none => []

/-- `",".join(video_filters)` (line 261). -/
def joinComma : List String → String
  | [] => ""
  | [x] => x
  | x :: y :: rest => x ++ "," ++ joinComma (y :: rest)

/-- The `-vf` block: added only when `video_filters` is nonempty
(lines 260-261). -/
def vf_args (wm : WatermarkMode) : List String :=
  match video_filters wm with
  | [] => []
  | fs => ["-vf", joinComma fs]

/-- The audio-routing block (lines 263-266): with `mute_original` the
original audio is dropped and input 1 (the external track) is mapped;
otherwise an `amix` graph mixes both audio streams with
`duration=shortest`. -/
def audio_args (mute_original : Bool) : List String :=
  if mute_original then ["-map", "0:v:0", "-map", "1:a:0"]
  else ["-filter_complex",
        "[0:a][1:a]amix=inputs=2:duration=shortest[aout]",
        "-map", "0:v:0", "-map", "[aout]"]

/-- `target_duration_sec = int(duration_hours * 3600)` (line 242):
`duration_hours` is a Python float, so the product is a rounded double
before the `int` truncation. -/
def target_duration_sec (duration_hours : ℚ) : ℕ :=
  (pyInt (pyMul duration_hours 3600)).toNat

/-- The full ffmpeg invocation assembled at lines 247-273. -/
def build_cmd (video_path audio_path : String) (target : ℕ)
    (wm : WatermarkMode) (mute_original : Bool)
    (video_codec preset out_path : String) : List String :=
  ["ffmpeg", "-y"]
    ++ ["-stream_loop", "-1", "-i", video_path]
    ++ ["-stream_loop", "-1", "-i", audio_path]
    ++ vf_args wm
    ++ audio_args mute_original
    ++ ["-t", toString target, "-c:v", video_codec, "-preset", preset,
        "-c:a", "aac", "-b:a", "192k", out_path]

/-- Codec selection (lines 230-238): this affects only throughput. -/
def codec_preset (has_gpu : Bool) : String × String :=
  if has_gpu then ("h264_nvenc", "p1") else ("libx264", "ultrafast")

/-- The render worker: final row state, the pushes it made to the store,
and whether an encoder process was spawned.  Mirrors `process_asmr_video`
(app.py lines 225-321) including its catch-all `except`: the only raises
are the `EnvironmentError` before `Popen` and the nonzero-exit
`Exception` raised after `process.wait()`. -/
def process_asmr_video (env : RenderEnv) (duration_hours : ℚ)
    (j : Job) : Job × List Push × Bool :=
  if ¬ env.ffmpeg_present then
    ({ j with status_render := RenderStatus.failed,
              logs := j.logs ++ ["Rendering Failed: FFmpeg not found!"] },
     [], false)
  else
    let j1 := { j with status_render := RenderStatus.rendering,
                       logs := j.logs ++
                         ["1. Starting Render... " ++ encoding_msg env.has_gpu] }
    let target := target_duration_sec duration_hours
    let pushes := renderPushes target env.start_time env.clock env.now
                    env.stderr_lines
    let j2 := pushes.foldl applyPush j1
    if env.returncode ≠ 0 then
      ({ j2 with status_render := RenderStatus.failed,
                 logs := j2.logs ++
                   ["Rendering Failed: FFmpeg returned error code "
                     ++ toString env.returncode] },
       pushes, true)
    else
      -- the terminal `update_job_progress(job_id, 100, "✅ Render Done")`
      -- (line 310) is reflected in the row; the returned push list holds
      -- the stderr-loop pushes
      let j3 := { j2 with progress := 100 }
      ({ j3 with status_render := RenderStatus.success,
                 status_upload := UploadStatus.waiting_schedule,
                 output_path := Option.some (output_full_path j.id env.epoch),
                 logs := j3.logs ++ ["2. Render Finished. Waiting for schedule."] },
       pushes, true)

/-!
## UploadScheduler: `scheduler_loop` (app.py lines 326-348)

One tick: snapshot `get_ready_to_upload_jobs()`, then for each snapshot
row compare `scheduled_at` with `datetime.datetime.now()` (read per row
inside the loop, modelled by the oracle `nowAt` indexed by job id); if
due, set `upload_status='uploading'` (with its log line) and run the
upload synchronously; the inner `try` turns an upload failure into
`upload_status='failed'` and a log entry.  The store is the list of rows
of the `jobs` table.
-/

/-- Result of one `upload_video_to_youtube` call, as an oracle indexed by
job id: `ok vid` is a completed upload returning the platform id,
`err msg` is the exception message of a failed one. -/
inductive UploadOutcome
  | ok (vid : String)
  | err (msg : String)
  deriving DecidableEq, Repr

/-- `update_job_status(id, upload_status=u, log_msg=m)`: per-row update of
the matching id (the SQL `UPDATE jobs ... WHERE id = ?`). -/
def setUpload (store : List Job) (i : ℕ) (u : UploadStatus) (m : String) :
    List Job :=
  store.map fun j =>
    if j.id = i then { j with status_upload := u, logs := j.logs ++ [m] } else j

/-- `update_job_status(id, upload_status='success', youtube_id=vid, ...)`. -/
def setUploadDone (store : List Job) (i : ℕ) (vid : String) : List Job :=
  store.map fun j =>
    if j.id = i then
      { j with status_upload := UploadStatus.success,
               youtube_id := Option.some vid,
               logs := j.logs ++ ["4. Upload Success! ID: " ++ vid] }
    else j

/-- The dispatch body (app.py lines 335-344): flip to `uploading`, run the
upload, then record success or failure. -/
def dispatchJob (outcome : ℕ → UploadOutcome) (store : List Job) (i : ℕ) :
    List Job :=
  let s1 := setUpload store i UploadStatus.uploading
              "3. Schedule Reached. Uploading..."
  match outcome i with
  | UploadOutcome.ok vid => setUploadDone s1 i vid
  | UploadOutcome.err msg =>
      setUpload s1 i UploadStatus.failed ("Upload Failed: " ++ msg)

/-- The `for job in jobs:` body over the snapshot, mutating the store and
collecting the ids dispatched this tick. -/
def tickAux (nowAt : ℕ → ℤ) (outcome : ℕ → UploadOutcome) :
    List Job → List Job → List Job × List ℕ
  | [], store => (store, [])
  | j :: rest, store =>
    if j.scheduled_at ≤ nowAt j.id then
      let store' := dispatchJob outcome store j.id
      let r := tickAux nowAt outcome rest store'
      (r.1, j.id :: r.2)
    else tickAux nowAt outcome rest store

/-- One scheduler tick: query the ready snapshot, then walk it. -/
def tick (nowAt : ℕ → ℤ) (outcome : ℕ → UploadOutcome) (store : List Job) :
    List Job × List ℕ :=
  tickAux nowAt outcome (store.filter readyFilter) store

/-- A run of successive scheduler ticks, each with its own clock and
upload-outcome oracles; returns the final store and all dispatched ids in
order. -/
def runTicks : List ((ℕ → ℤ) × (ℕ → UploadOutcome)) → List Job →
    List Job × List ℕ
  | [], store => (store, [])
  | p :: ps, store =>
    let r := tick p.1 p.2 store
    let rest := runTicks ps r.1
    (rest.1, r.2 ++ rest.2)

/-- Distinctness of row ids (the `id INTEGER PRIMARY KEY` constraint). -/
def NodupIds (store : List Job) : Prop := (store.map Job.id).Nodup

/-!
## Effect-level semantics of the emitted ffmpeg arguments

The encoder is an external collaborator: the spec fixes its filter graph
"only at the level of effect" (§1-§2, §4.2).  The definitions below give
that effect-level meaning to the exact argument strings `app.py` emits, by
parsing them according to ffmpeg's documented grammar.  They are used to
compare the built command against the §4.2 table and §4.2's audio-routing
sentence.
-/

/-- Split a character list at every occurrence of a separator. -/
def splitOnChar (sep : Char) : List Char → List (List Char)
  | [] => [[]]
  | c :: cs =>
    let r := splitOnChar sep cs
    if c = sep then [] :: r
    else
      match r with
      | y :: ys => (c :: y) :: ys
      | [] => [[c]]

/-- Decimal value of a nonempty all-digit character list. -/
def natFromDigitsAux : ℕ → List Char → Option ℕ
  | acc, [] => Option.some acc
  | acc, c :: cs =>
    if c.isDigit then natFromDigitsAux (10 * acc + digitVal c) cs
    else Option.none

/-- Decimal value of a nonempty all-digit character list. -/
def natFromDigits (cs : List Char) : Option ℕ :=
  if cs = [] then Option.none else natFromDigitsAux 0 cs

/-- Longest digit prefix and the remainder. -/
def takeDigits : List Char → List Char × List Char
  | [] => ([], [])
  | c :: cs =>
    if c.isDigit then
      let r := takeDigits cs
      (c :: r.1, r.2)
    else ([], c :: cs)

/-- Modelled from the spec: the effect of one ffmpeg video filter, at the
level of geometry the spec uses in the §4.2 table ("remove band", "obscure
band in place", "crop then rescale with high-quality resampling"). -/
inductive FilterStep
  /-- keep the top-left region: drop `rightCut` columns from the right and
  `bottomCut` rows from the bottom; no resampling -/
  | cropKeepTopLeft (rightCut bottomCut : ℕ)
  /-- obscure the bottom `bandH`-pixel full-width band in place; the frame
  size is unchanged -/
  | obscureBottomBand (bandH : ℕ)
  /-- resample the whole frame to `w × h` with the lanczos (high-quality)
  scaler -/
  | scaleLanczos (w h : ℕ)
  deriving DecidableEq, Repr

/-- Modelled from the spec: parse a crop dimension expression, `in_w` /
`in_h` meaning "unchanged" and `in_w-N` / `in_h-N` meaning "N pixels
removed". -/
def parseCut (base s : List Char) : Option ℕ :=
  if s = base then Option.some 0
  else if s.take (base.length + 1) = base ++ ['-'] then
    natFromDigits (s.drop (base.length + 1))
  else Option.none

/-- Modelled from the spec: `crop=W:H:X:Y` keeps the `W × H` region at
offset `(X, Y)`; with offset `0:0` this is the top-left region. -/
def parseCrop (opts : List Char) : Option FilterStep :=
  match splitOnChar ':' opts with
  | [w, h, x, y] =>
    if x = ['0'] ∧ y = ['0'] then
      match parseCut "in_w".data w, parseCut "in_h".data h with
      | Option.some r, Option.some b => Option.some (FilterStep.cropKeepTopLeft r b)
      | _, _ => Option.none
    else Option.none
  | _ => Option.none

/-- Modelled from the spec: `delogo=x=0:y=h-B:w=w:h=B` obscures the
full-width band of height `B` at the bottom of the frame, in place. -/
def parseDelogo (opts : List Char) : Option FilterStep :=
  match splitOnChar ':' opts with
  | [x, y, w, h] =>
    if x = "x=0".data ∧ w = "w=w".data ∧ y.take 4 = "y=h-".data
        ∧ h.take 2 = "h=".data then
      match natFromDigits (y.drop 4), natFromDigits (h.drop 2) with
      | Option.some b1, Option.some b2 =>
        if b1 = b2 then Option.some (FilterStep.obscureBottomBand b1)
        else Option.none
      | _, _ => Option.none
    else Option.none
  | _ => Option.none

/-- Modelled from the spec: `scale=W:H:flags=lanczos` resamples to
`W × H` with the lanczos scaler. -/
def parseScale (opts : List Char) : Option FilterStep :=
  match splitOnChar ':' opts with
  | [w, h, fl] =>
    if fl = "flags=lanczos".data then
      match natFromDigits w, natFromDigits h with
      | Option.some wv, Option.some hv => Option.some (FilterStep.scaleLanczos wv hv)
      | _, _ => Option.none
    else Option.none
  | _ => Option.none

/-- Modelled from the spec: one comma-separated atom of a `-vf` chain. -/
def parseFilterAtom (atom : List Char) : Option FilterStep :=
  if atom.take 5 = "crop=".data then parseCrop (atom.drop 5)
  else if atom.take 7 = "delogo=".data then parseDelogo (atom.drop 7)
  else if atom.take 6 = "scale=".data then parseScale (atom.drop 6)
  else Option.none

/-- Modelled from the spec: a `-vf` argument denotes the left-to-right
composition of its comma-separated atoms. -/
def parseFilterChain (vf : String) : Option (List FilterStep) :=
  (splitOnChar ',' vf.data).mapM parseFilterAtom

/-- Frame dimensions after one filter step. -/
def stepDims : FilterStep → ℕ × ℕ → ℕ × ℕ
  | FilterStep.cropKeepTopLeft r b, (w, h) => (w - r, h - b)
  | FilterStep.obscureBottomBand _, d => d
  | FilterStep.scaleLanczos w h, _ => (w, h)

/-- Frame dimensions after a filter chain. -/
def chainDims (steps : List FilterStep) (d : ℕ × ℕ) : ℕ × ℕ :=
  steps.foldl (fun acc s => stepDims s acc) d

/-- The value following the first `-vf` flag of a command line, if any. -/
def vfOf : List String → Option String
  | [] => Option.none
  | a :: rest => if a = "-vf" then rest.head? else vfOf rest

/-- The value following the first `-filter_complex` flag, if any. -/
def fcOf : List String → Option String
  | [] => Option.none
  | a :: rest => if a = "-filter_complex" then rest.head? else fcOf rest

/-- All `-map` values of a command line, in order. -/
def mapsOf : List String → List String
  | [] => []
  | a :: rest =>
    if a = "-map" then
      match rest with
      | x :: r => x :: mapsOf r
      | [] => []
    else mapsOf rest

/-- The input files of a command line: the values following `-i`. -/
def inputsOf : List String → List String
  | [] => []
  | a :: rest =>
    if a = "-i" then
      match rest with
      | x :: r => x :: inputsOf r
      | [] => []
    else inputsOf rest

/-- Modelled from the spec: a `-map` stream specifier `i:a:k` selects
audio stream `k` of input `i`; returns that input index. -/
def parseAudioMap (s : String) : Option ℕ :=
  match splitOnChar ':' s.data with
  | [i, t, k] =>
    if t = ['a'] then
      match natFromDigits i, natFromDigits k with
      | Option.some iv, Option.some _ => Option.some iv
      | _, _ => Option.none
    else Option.none
  | _ => Option.none

/-- Modelled from the spec: parsed form of the one filter-complex graph
`app.py` can emit, `[i:a][j:a]amix=inputs=n:duration=<mode>[label]`:
mix the audio of inputs `i` and `j`; with mode `shortest` the mix is
truncated to the shorter input. -/
structure AmixGraph where
  in1 : ℕ
  in2 : ℕ
  ninputs : ℕ
  shortest : Bool
  outLabel : List Char
  deriving DecidableEq, Repr

/-- Parse a leading `[N:a]` audio-link of a filter graph. -/
def parseAudioLink : List Char → Option (ℕ × List Char)
  | '[' :: rest =>
    let p := takeDigits rest
    match p.2 with
    | ':' :: 'a' :: ']' :: r2 => (natFromDigits p.1).map fun n => (n, r2)
    | _ => Option.none
  | _ => Option.none

/-- Modelled from the spec: parse an amix filter-complex graph. -/
def parseAmix (cs : List Char) : Option AmixGraph :=
  match parseAudioLink cs with
  | Option.none => Option.none
  | Option.some (i, r1) =>
    match parseAudioLink r1 with
    | Option.none => Option.none
    | Option.some (j, r2) =>
      if r2.take 12 = "amix=inputs=".data then
        let p := takeDigits (r2.drop 12)
        match natFromDigits p.1 with
        | Option.none => Option.none
        | Option.some n =>
          match p.2.take 10, p.2.drop 10 with
          | d, rest =>
            if d = ":duration=".data then
              let mode := rest.takeWhile (fun c => c ≠ '[')
              match rest.drop mode.length with
              | '[' :: r3 =>
                let lbl := r3.takeWhile (fun c => c ≠ ']')
                if r3.drop lbl.length = [']'] then
                  Option.some ⟨i, j, n, mode = "shortest".data, lbl⟩
                else Option.none
              | _ => Option.none
            else Option.none
      else Option.none

/-- Modelled from the spec: the audio content routed to the output file. -/
inductive AudioOut
  /-- the single audio stream of input `i` -/
  | single (i : ℕ)
  /-- the mix of the audio of inputs `i` and `j`; `shortest` tells whether
  the mix is truncated to the shorter of the two -/
  | mix2 (i j : ℕ) (shortest : Bool)
  deriving DecidableEq, Repr

/-- Modelled from the spec: the audio routing denoted by a command line:
either exactly one `-map i:a:k` stream, or a two-input amix graph whose
labelled output is the unique non-file-stream `-map`. -/
def audioOutOf (cmd : List String) : Option AudioOut :=
  match fcOf cmd with
  | Option.none =>
    match (mapsOf cmd).filterMap parseAudioMap with
    | [i] => Option.some (AudioOut.single i)
    | _ => Option.none
  | Option.some fc =>
    match parseAmix fc.data with
    | Option.none => Option.none
    | Option.some g =>
      match (mapsOf cmd).filter (fun s => s.data.take 1 = ['[']) with
      | [lbl] =>
        if lbl.data = '[' :: (g.outLabel ++ [']']) ∧ g.ninputs = 2
            ∧ (mapsOf cmd).filterMap parseAudioMap = [] then
          Option.some (AudioOut.mix2 g.in1 g.in2 g.shortest)
        else Option.none
      | _ => Option.none

/-!
## Auxiliary predicates and sample data used by the verification
-/

/-- No row of the store with this id is in `waiting_schedule`. -/
def NotWaiting (store : List Job) (i : ℕ) : Prop :=
  ∀ j ∈ store, j.id = i → j.status_upload ≠ UploadStatus.waiting_schedule

/-- No row of the store with this id has a successful render. -/
def NoRenderSuccess (store : List Job) (i : ℕ) : Prop :=
  ∀ j ∈ store, j.id = i → j.status_render ≠ RenderStatus.success

/-- The character `'0'` shifted by a digit value. -/
def digitChar (d : ℕ) : Char := Char.ofNat (48 + d)

/-- Zero-padded two-digit rendering, as ffmpeg prints the time fields. -/
def twoDigits (n : ℕ) : List Char := [digitChar (n / 10), digitChar (n % 10)]

/-- An ffmpeg progress line carrying the token `time=HH:MM:SS.ff`. -/
def timeLine (h m s f : ℕ) : String :=
  String.mk (['t', 'i', 'm', 'e', '='] ++ twoDigits h ++ [':'] ++ twoDigits m
    ++ [':'] ++ twoDigits s ++ ['.'] ++ twoDigits f)

/-- A path string that cannot be mistaken for one of the ffmpeg flags the
command-line scanners key on. -/
def BenignArg (s : String) : Prop :=
  s ≠ "-i" ∧ s ≠ "-vf" ∧ s ≠ "-filter_complex" ∧ s ≠ "-map"

/-- Sample render environment: encoder present, no GPU, empty diagnostic
stream, exit code 0. -/
def sampleEnv : RenderEnv :=
  ⟨true, false, [], 0, 0, fun _ => 0, fun _ => 0, 7⟩

/-- Sample render environment with the encoder binary absent. -/
def sampleEnvNoFfmpeg : RenderEnv :=
  ⟨false, false, [], 0, 0, fun _ => 0, fun _ => 0, 7⟩

/-- A sample fresh job row. -/
def sampleJob : Job := add_job 1 "video.mp4" "audio.mp3" 100

/-- A sample rendered job row waiting for its upload schedule. -/
def sampleReadyJob : Job :=
  { sampleJob with status_render := RenderStatus.success,
                   status_upload := UploadStatus.waiting_schedule }

/-!
## Arithmetic lemmas about the double-precision model
-/

theorem bitsAux_zero (f : ℕ) : bitsAux f 0 = 0 := by
  cases f <;> simp [bitsAux]

theorem bitsAux_congr : ∀ f g n : ℕ, n ≤ f → n ≤ g → bitsAux f n = bitsAux g n := by
  intro f
  induction f with
  | zero =>
    intro g n hf _
    interval_cases n
    exact (bitsAux_zero g).symm
  | succ f ih =>
    intro g n hf hg
    rcases Nat.eq_zero_or_pos n with rfl | hn
    · rw [bitsAux_zero, bitsAux_zero]
    · obtain ⟨g', rfl⟩ : ∃ g', g = g' + 1 := ⟨g - 1, by omega⟩
      have h2 : n / 2 ≤ n - 1 := by omega
      simp only [bitsAux, if_neg (by omega : ¬ n = 0)]
      rw [ih g' (n / 2) (by omega) (by omega)]

theorem bits_eq_of_pos {n : ℕ} (h : 0 < n) : bits n = bits (n / 2) + 1 := by
  obtain ⟨m, rfl⟩ : ∃ m, n = m + 1 := ⟨n - 1, by omega⟩
  show bitsAux (m + 1) (m + 1) = bitsAux ((m + 1) / 2) ((m + 1) / 2) + 1
  simp only [bitsAux, if_neg (by omega : ¬ m + 1 = 0)]
  rw [bitsAux_congr m ((m + 1) / 2) ((m + 1) / 2) (by omega) (by omega)]

theorem bits_pos {n : ℕ} (h : 0 < n) : 0 < bits n := by
  rw [bits_eq_of_pos h]; omega

theorem bits_lt (n : ℕ) : n < 2 ^ bits n := by
  induction n using Nat.strong_induction_on with
  | _ n ih =>
    rcases Nat.eq_zero_or_pos n with rfl | hn
    · simp [bits, bitsAux]
    · rw [bits_eq_of_pos hn]
      have h2 : n / 2 < 2 ^ bits (n / 2) := ih (n / 2) (by omega)
      have h3 : 2 ^ (bits (n / 2) + 1) = 2 * 2 ^ bits (n / 2) := by ring
      omega

theorem le_bits {n : ℕ} (h : 0 < n) : 2 ^ (bits n - 1) ≤ n := by
  induction n using Nat.strong_induction_on with
  | _ n ih =>
    rcases Nat.lt_or_ge n 2 with hn | hn
    · interval_cases n
      · decide
    · have hhalf : 0 < n / 2 := by omega
      have h1 : bits n - 1 = bits (n / 2) := by rw [bits_eq_of_pos (by omega : 0 < n)]; omega
      rw [h1]
      have h2 : 2 ^ (bits (n / 2) - 1) ≤ n / 2 := ih (n / 2) (by omega) hhalf
      have h3 : 0 < bits (n / 2) := bits_pos hhalf
      have h4 : 2 ^ bits (n / 2) = 2 * 2 ^ (bits (n / 2) - 1) := by
        conv_lhs => rw [show bits (n / 2) = bits (n / 2) - 1 + 1 by omega]
        ring
      omega

theorem qshift_eq (q : ℚ) (k : ℤ) : qshift q k = q * (2 : ℚ) ^ k := by
  unfold qshift
  split
  · next h =>
    push_cast
    rw [← zpow_natCast (2 : ℚ) k.toNat, Int.toNat_of_nonneg h]
  · next h =>
    push_cast
    rw [← zpow_natCast (2 : ℚ) (-k).toNat,
      Int.toNat_of_nonneg (by omega : (0:ℤ) ≤ -k), div_eq_mul_inv, ← zpow_neg,
      neg_neg]

theorem rne_le (m : ℚ) : (rne m : ℚ) ≤ m + 1/2 := by
  have h1 : (⌊m⌋ : ℚ) ≤ m := Int.floor_le m
  have h2 : m < ⌊m⌋ + 1 := Int.lt_floor_add_one m
  unfold rne
  split_ifs <;> push_cast <;> linarith

theorem le_rne (m : ℚ) : m - 1/2 ≤ (rne m : ℚ) := by
  have h1 : (⌊m⌋ : ℚ) ≤ m := Int.floor_le m
  have h2 : m < ⌊m⌋ + 1 := Int.lt_floor_add_one m
  unfold rne
  split_ifs <;> push_cast <;> linarith

theorem floor_le_rne (m : ℚ) : ⌊m⌋ ≤ rne m := by
  unfold rne; split_ifs <;> omega

theorem rne_le_floor_add_one (m : ℚ) : rne m ≤ ⌊m⌋ + 1 := by
  unfold rne; split_ifs <;> omega

theorem rne_mono {a b : ℚ} (hab : a ≤ b) : rne a ≤ rne b := by
  rcases lt_or_eq_of_le (Int.floor_le_floor hab) with hf | hf
  · calc rne a ≤ ⌊a⌋ + 1 := rne_le_floor_add_one a
      _ ≤ ⌊b⌋ := by omega
      _ ≤ rne b := floor_le_rne b
  · have hfq : ((⌊a⌋ : ℤ) : ℚ) = ((⌊b⌋ : ℤ) : ℚ) := by exact_mod_cast hf
    have h2 : a - (⌊a⌋ : ℚ) ≤ b - (⌊b⌋ : ℚ) := by rw [← hfq]; linarith
    unfold rne
    split_ifs <;> first | omega | linarith

theorem div_bounds {a b : ℕ} (ha : 0 < a) (hb : 0 < b) :
    (2:ℚ) ^ ((bits a : ℤ) - (bits b : ℤ) - 1) < (a : ℚ) / (b : ℚ) ∧
    (a : ℚ) / (b : ℚ) < (2:ℚ) ^ ((bits a : ℤ) - (bits b : ℤ) + 1) := by
  have hb0 : (0:ℚ) < (b:ℚ) := by exact_mod_cast hb
  have htwo : (2:ℚ) ≠ 0 := by norm_num
  have hA1 : (a:ℚ) < (2:ℚ) ^ ((bits a : ℕ) : ℤ) := by exact_mod_cast bits_lt a
  have hB1 : (b:ℚ) < (2:ℚ) ^ ((bits b : ℕ) : ℤ) := by exact_mod_cast bits_lt b
  have hA2 : (2:ℚ) ^ ((bits a : ℤ) - 1) ≤ (a:ℚ) := by
    have hp : 0 < bits a := bits_pos ha
    calc (2:ℚ) ^ ((bits a : ℤ) - 1) = (2:ℚ) ^ (((bits a - 1 : ℕ)) : ℤ) := by
          congr 1; omega
      _ ≤ (a:ℚ) := by exact_mod_cast le_bits ha
  have hB2 : (2:ℚ) ^ ((bits b : ℤ) - 1) ≤ (b:ℚ) := by
    have hp : 0 < bits b := bits_pos hb
    calc (2:ℚ) ^ ((bits b : ℤ) - 1) = (2:ℚ) ^ (((bits b - 1 : ℕ)) : ℤ) := by
          congr 1; omega
      _ ≤ (b:ℚ) := by exact_mod_cast le_bits hb
  constructor
  · rw [lt_div_iff₀ hb0]
    calc (2:ℚ) ^ ((bits a : ℤ) - (bits b : ℤ) - 1) * (b:ℚ)
        < (2:ℚ) ^ ((bits a : ℤ) - (bits b : ℤ) - 1) * (2:ℚ) ^ ((bits b : ℕ) : ℤ) :=
          mul_lt_mul_of_pos_left hB1 (zpow_pos (by norm_num) _)
      _ = (2:ℚ) ^ ((bits a : ℤ) - 1) := by
          rw [← zpow_add₀ htwo]; congr 1; omega
      _ ≤ (a:ℚ) := hA2
  · rw [div_lt_iff₀ hb0]
    calc (a:ℚ) < (2:ℚ) ^ ((bits a : ℕ) : ℤ) := hA1
      _ = (2:ℚ) ^ ((bits a : ℤ) - (bits b : ℤ) + 1) * (2:ℚ) ^ ((bits b : ℤ) - 1) := by
          rw [← zpow_add₀ htwo]; congr 1; omega
      _ ≤ (2:ℚ) ^ ((bits a : ℤ) - (bits b : ℤ) + 1) * (b:ℚ) :=
          mul_le_mul_of_nonneg_left hB2 (zpow_pos (by norm_num) _).le

theorem floorLog2_spec {q : ℚ} (hq : 0 < q) :
    (2:ℚ) ^ floorLog2 q ≤ q ∧ q < (2:ℚ) ^ (floorLog2 q + 1) := by
  have hnum : 0 < q.num := Rat.num_pos.mpr hq
  have ha : 0 < q.num.toNat := by omega
  have hb : 0 < q.den := q.den_pos
  have hcast : ((q.num.toNat : ℕ) : ℚ) = ((q.num : ℤ) : ℚ) := by
    exact_mod_cast congrArg (Int.cast : ℤ → ℚ) (Int.toNat_of_nonneg hnum.le)
  have key : q = ((q.num.toNat : ℕ) : ℚ) / ((q.den : ℕ) : ℚ) := by
    rw [hcast]; exact (Rat.num_div_den q).symm
  obtain ⟨h1, h2⟩ := div_bounds ha hb
  rw [← key] at h1 h2
  simp only [floorLog2]
  rw [qshift_eq, one_mul]
  split_ifs with h
  · exact ⟨h, h2⟩
  · refine ⟨h1.le, ?_⟩
    rw [show (bits q.num.toNat : ℤ) - (bits q.den : ℤ) - 1 + 1
          = (bits q.num.toNat : ℤ) - (bits q.den : ℤ) by ring]
    exact lt_of_not_le h

theorem toDoublePos_eq (q : ℚ) :
    toDoublePos q
      = ((rne (q * (2:ℚ) ^ (-(floorLog2 q - 52))) : ℤ) : ℚ)
          * (2:ℚ) ^ (floorLog2 q - 52) := by
  simp only [toDoublePos, qshift_eq]

theorem scaled_bounds {q : ℚ} (hq : 0 < q) :
    (2:ℚ) ^ (52:ℤ) ≤ q * (2:ℚ) ^ (-(floorLog2 q - 52)) ∧
    q * (2:ℚ) ^ (-(floorLog2 q - 52)) < (2:ℚ) ^ (53:ℤ) := by
  obtain ⟨hl, hu⟩ := floorLog2_spec hq
  have htwo : (2:ℚ) ≠ 0 := by norm_num
  constructor
  · calc (2:ℚ)^(52:ℤ) = (2:ℚ)^(floorLog2 q) * (2:ℚ)^(-(floorLog2 q - 52)) := by
          rw [← zpow_add₀ htwo]; congr 1; ring
      _ ≤ q * (2:ℚ)^(-(floorLog2 q - 52)) :=
        mul_le_mul_of_nonneg_right hl (zpow_pos (by norm_num) _).le
  · calc q * (2:ℚ)^(-(floorLog2 q - 52))
        < (2:ℚ)^(floorLog2 q + 1) * (2:ℚ)^(-(floorLog2 q - 52)) :=
        mul_lt_mul_of_pos_right hu (zpow_pos (by norm_num) _)
      _ = (2:ℚ)^(53:ℤ) := by rw [← zpow_add₀ htwo]; congr 1; ring

theorem toDoublePos_nonneg {q : ℚ} (hq : 0 < q) : 0 ≤ toDoublePos q := by
  rw [toDoublePos_eq]
  have hs : (0:ℚ) ≤ q * (2:ℚ) ^ (-(floorLog2 q - 52)) := by positivity
  have h1 : (0:ℤ) ≤ rne (q * (2:ℚ) ^ (-(floorLog2 q - 52))) :=
    le_trans (Int.floor_nonneg.mpr hs) (floor_le_rne _)
  exact mul_nonneg (by exact_mod_cast h1) (zpow_pos (by norm_num) _).le

theorem toDouble_nonneg {q : ℚ} (hq : 0 ≤ q) : 0 ≤ toDouble q := by
  unfold toDouble
  split_ifs with h1 h2
  · exact le_refl 0
  · exact toDoublePos_nonneg h2
  · exact absurd (lt_of_le_of_ne hq (Ne.symm h1)) h2

theorem floorLog2_mono {a b : ℚ} (ha : 0 < a) (hab : a ≤ b) :
    floorLog2 a ≤ floorLog2 b := by
  have hb : 0 < b := lt_of_lt_of_le ha hab
  have h1 : (2:ℚ) ^ floorLog2 a ≤ a := (floorLog2_spec ha).1
  have h2 : b < (2:ℚ) ^ (floorLog2 b + 1) := (floorLog2_spec hb).2
  have h3 : (2:ℚ) ^ floorLog2 a < (2:ℚ) ^ (floorLog2 b + 1) :=
    lt_of_le_of_lt (le_trans h1 hab) h2
  have := (zpow_lt_zpow_iff_right₀ (by norm_num : (1:ℚ) < 2)).mp h3
  omega

theorem toDoublePos_mono {a b : ℚ} (ha : 0 < a) (hab : a ≤ b) :
    toDoublePos a ≤ toDoublePos b := by
  have hb : 0 < b := lt_of_lt_of_le ha hab
  have htwo : (2:ℚ) ≠ 0 := by norm_num
  rcases lt_or_eq_of_le (floorLog2_mono ha hab) with hEF | hEF
  · -- the exponent grows: a rounds to at most 2 ^ (E+1) ≤ 2 ^ F ≤ rounded b
    rw [toDoublePos_eq, toDoublePos_eq]
    have hua := (scaled_bounds ha).2
    have hlb := (scaled_bounds hb).1
    have hra : rne (a * (2:ℚ) ^ (-(floorLog2 a - 52))) ≤ 2 ^ 53 := by
      have hfl : ⌊a * (2:ℚ) ^ (-(floorLog2 a - 52))⌋ < 2 ^ 53 := by
        apply Int.floor_lt.mpr
        calc a * (2:ℚ) ^ (-(floorLog2 a - 52)) < (2:ℚ) ^ (53:ℤ) := hua
          _ = ((2 ^ 53 : ℤ) : ℚ) := by norm_num
      have := rne_le_floor_add_one (a * (2:ℚ) ^ (-(floorLog2 a - 52)))
      omega
    have hrb : (2:ℤ) ^ 52 ≤ rne (b * (2:ℚ) ^ (-(floorLog2 b - 52))) := by
      refine le_trans ?_ (floor_le_rne _)
      apply Int.le_floor.mpr
      calc (((2:ℤ) ^ 52 : ℤ) : ℚ) = (2:ℚ) ^ (52:ℤ) := by norm_num
        _ ≤ b * (2:ℚ) ^ (-(floorLog2 b - 52)) := hlb
    calc ((rne (a * (2:ℚ) ^ (-(floorLog2 a - 52))) : ℤ) : ℚ)
          * (2:ℚ) ^ (floorLog2 a - 52)
        ≤ ((2:ℚ) ^ (53:ℤ)) * (2:ℚ) ^ (floorLog2 a - 52) := by
          apply mul_le_mul_of_nonneg_right _ (zpow_pos (by norm_num) _).le
          calc ((rne (a * (2:ℚ) ^ (-(floorLog2 a - 52))) : ℤ) : ℚ)
              ≤ (((2:ℤ) ^ 53 : ℤ) : ℚ) := by exact_mod_cast hra
            _ = (2:ℚ) ^ (53:ℤ) := by norm_num
      _ = (2:ℚ) ^ (floorLog2 a + 1) := by rw [← zpow_add₀ htwo]; congr 1; ring
      _ ≤ (2:ℚ) ^ (floorLog2 b) := by
          apply zpow_le_zpow_right₀ (by norm_num : (1:ℚ) ≤ 2); omega
      _ = ((2:ℚ) ^ (52:ℤ)) * (2:ℚ) ^ (floorLog2 b - 52) := by
          rw [← zpow_add₀ htwo]; congr 1; ring
      _ ≤ ((rne (b * (2:ℚ) ^ (-(floorLog2 b - 52))) : ℤ) : ℚ)
            * (2:ℚ) ^ (floorLog2 b - 52) := by
          apply mul_le_mul_of_nonneg_right _ (zpow_pos (by norm_num) _).le
          calc (2:ℚ) ^ (52:ℤ) = (((2:ℤ) ^ 52 : ℤ) : ℚ) := by norm_num
            _ ≤ _ := by exact_mod_cast hrb
  · -- same exponent: monotone rounding at a fixed scale
    rw [toDoublePos_eq, toDoublePos_eq, ← hEF]
    apply mul_le_mul_of_nonneg_right _ (zpow_pos (by norm_num) _).le
    have hscaled : a * (2:ℚ) ^ (-(floorLog2 a - 52))
        ≤ b * (2:ℚ) ^ (-(floorLog2 a - 52)) :=
      mul_le_mul_of_nonneg_right hab (zpow_pos (by norm_num) _).le
    exact_mod_cast rne_mono hscaled

theorem toDouble_mono {a b : ℚ} (ha : 0 ≤ a) (hab : a ≤ b) :
    toDouble a ≤ toDouble b := by
  rcases eq_or_lt_of_le ha with h0 | h0
  · rw [toDouble, if_pos h0.symm]
    exact toDouble_nonneg (le_trans ha hab)
  · have hb : 0 < b := lt_of_lt_of_le h0 hab
    rw [toDouble, toDouble, if_neg (ne_of_gt h0), if_pos h0,
      if_neg (ne_of_gt hb), if_pos hb]
    exact toDoublePos_mono h0 hab

theorem pyInt_mono {a b : ℚ} (h : a ≤ b) : pyInt a ≤ pyInt b := by
  unfold pyInt
  split_ifs with h1 h2 h3
  · exact Int.ceil_le_ceil h
  · exact le_trans (Int.ceil_le.mpr (by exact_mod_cast h1.le))
      (Int.floor_nonneg.mpr (not_lt.mp h2))
  · exact absurd (lt_of_le_of_lt h h3) h1
  · exact Int.floor_le_floor h

theorem pyDiv_nonneg {a b : ℚ} (ha : 0 ≤ a) (hb : 0 ≤ b) : 0 ≤ pyDiv a b :=
  toDouble_nonneg (div_nonneg ha hb)

theorem pyPercent_le (cur target : ℕ) : pyPercent cur target ≤ 99 :=
  min_le_right _ _

theorem pyPercent_mono {c c' target : ℕ} (h : c ≤ c') :
    pyPercent c target ≤ pyPercent c' target := by
  have hdiv : (c:ℚ) / (target:ℚ) ≤ (c':ℚ) / (target:ℚ) := by
    rcases Nat.eq_zero_or_pos target with rfl | ht
    · simp
    · have htq : (0:ℚ) < (target:ℚ) := by exact_mod_cast ht
      exact (div_le_div_iff_of_pos_right htq).mpr (by exact_mod_cast h)
  have h0 : (0:ℚ) ≤ (c:ℚ) / (target:ℚ) := by positivity
  have hd : pyDiv (c:ℚ) (target:ℚ) ≤ pyDiv (c':ℚ) (target:ℚ) :=
    toDouble_mono h0 hdiv
  have hd0 : 0 ≤ pyDiv (c:ℚ) (target:ℚ) := toDouble_nonneg h0
  have hm : pyMul (pyDiv (c:ℚ) (target:ℚ)) 100
      ≤ pyMul (pyDiv (c':ℚ) (target:ℚ)) 100 :=
    toDouble_mono (by positivity) (mul_le_mul_of_nonneg_right hd (by norm_num))
  exact min_le_min (pyInt_mono hm) (le_refl 99)

theorem renderPushesAux_percent (target : ℕ) (startT : ℚ) (clock now : ℕ → ℚ)
    (ls : List String) : ∀ i : ℕ,
    (renderPushesAux target startT clock now i ls).map Push.percent
      = ((ls.filterMap lineCur).filter (fun c => decide (0 < c))).map
          (fun c => pyPercent c target) := by
  induction ls with
  | nil => intro i; rfl
  | cons l ls ih =>
    intro i
    cases h : lineCur l with
    | none => simp [renderPushesAux, linePush, h, ih (i + 1)]
    | some cur =>
      by_cases hc : 0 < cur
      · simp [renderPushesAux, linePush, h, hc, ih (i + 1)]
      · simp [renderPushesAux, linePush, h, hc, ih (i + 1)]

/-!
## Scheduler lemmas
-/

theorem map_update_ids (f : Job → Job) (hf : ∀ j, (f j).id = j.id)
    (s : List Job) : (s.map f).map Job.id = s.map Job.id := by
  induction s with
  | nil => rfl
  | cons j s ih => simp [ih, hf]

theorem setUpload_ids (s : List Job) (i : ℕ) (u : UploadStatus) (m : String) :
    (setUpload s i u m).map Job.id = s.map Job.id :=
  map_update_ids _ (fun j => by split <;> rfl) s

theorem setUploadDone_ids (s : List Job) (i : ℕ) (v : String) :
    (setUploadDone s i v).map Job.id = s.map Job.id :=
  map_update_ids _ (fun j => by split <;> rfl) s

theorem dispatchJob_ids (oc : ℕ → UploadOutcome) (s : List Job) (i : ℕ) :
    (dispatchJob oc s i).map Job.id = s.map Job.id := by
  unfold dispatchJob
  cases oc i <;> simp [setUpload_ids, setUploadDone_ids]

theorem tickAux_ids (nowAt : ℕ → ℤ) (oc : ℕ → UploadOutcome) :
    ∀ (l s : List Job), (tickAux nowAt oc l s).1.map Job.id = s.map Job.id := by
  intro l
  induction l with
  | nil => intro s; rfl
  | cons j rest ih =>
    intro s
    simp only [tickAux]
    split_ifs with h
    · simp [ih, dispatchJob_ids]
    · exact ih s

theorem tick_ids (nowAt : ℕ → ℤ) (oc : ℕ → UploadOutcome) (s : List Job) :
    (tick nowAt oc s).1.map Job.id = s.map Job.id :=
  tickAux_ids nowAt oc _ s

theorem tickAux_dispatch_sublist (nowAt : ℕ → ℤ) (oc : ℕ → UploadOutcome) :
    ∀ (l s : List Job), (tickAux nowAt oc l s).2.Sublist (l.map Job.id) := by
  intro l
  induction l with
  | nil => intro s; simp [tickAux]
  | cons j rest ih =>
    intro s
    simp only [tickAux]
    split_ifs with h
    · exact (ih _).cons₂ j.id
    · exact (ih s).cons j.id

theorem tickAux_dispatch_mem (nowAt : ℕ → ℤ) (oc : ℕ → UploadOutcome) :
    ∀ (l s : List Job) (i : ℕ), i ∈ (tickAux nowAt oc l s).2 →
      ∃ j ∈ l, j.id = i ∧ j.scheduled_at ≤ nowAt i := by
  intro l
  induction l with
  | nil => intro s i h; simp [tickAux] at h
  | cons j rest ih =>
    intro s i h
    simp only [tickAux] at h
    split_ifs at h with hd
    · rcases List.mem_cons.mp h with rfl | h2
      · exact ⟨j, List.mem_cons_self j rest, rfl, hd⟩
      · obtain ⟨j', hj', hid, hle⟩ := ih _ i h2
        exact ⟨j', List.mem_cons_of_mem j hj', hid, hle⟩
    · obtain ⟨j', hj', hid, hle⟩ := ih s i h
      exact ⟨j', List.mem_cons_of_mem j hj', hid, hle⟩

theorem NotWaiting_setUpload {s : List Job} {i : ℕ} (h : NotWaiting s i)
    {k : ℕ} {u : UploadStatus} {m : String}
    (hu : u ≠ UploadStatus.waiting_schedule) :
    NotWaiting (setUpload s k u m) i := by
  intro j' hj' hid
  simp only [setUpload, List.mem_map] at hj'
  obtain ⟨j, hj, rfl⟩ := hj'
  by_cases hk : j.id = k
  · simp only [if_pos hk]
    exact hu
  · simp only [if_neg hk] at hid ⊢
    exact h j hj hid

theorem NotWaiting_setUploadDone {s : List Job} {i : ℕ} (h : NotWaiting s i)
    {k : ℕ} {v : String} : NotWaiting (setUploadDone s k v) i := by
  intro j' hj' hid
  simp only [setUploadDone, List.mem_map] at hj'
  obtain ⟨j, hj, rfl⟩ := hj'
  by_cases hk : j.id = k
  · simp only [if_pos hk]
    intro hw
    exact absurd hw (by simp)
  · simp only [if_neg hk] at hid ⊢
    exact h j hj hid

theorem NotWaiting_dispatchJob {oc : ℕ → UploadOutcome} {s : List Job}
    {i k : ℕ} (h : NotWaiting s i) : NotWaiting (dispatchJob oc s k) i := by
  unfold dispatchJob
  cases oc k with
  | ok v => exact NotWaiting_setUploadDone (NotWaiting_setUpload h (by simp))
  | err m =>
    exact NotWaiting_setUpload (NotWaiting_setUpload h (by simp)) (by simp)

theorem NotWaiting_dispatchJob_self (oc : ℕ → UploadOutcome) (s : List Job)
    (i : ℕ) : NotWaiting (dispatchJob oc s i) i := by
  intro j' hj' hid
  unfold dispatchJob at hj'
  cases hoc : oc i with
  | ok v =>
    rw [hoc] at hj'
    simp only [setUploadDone, setUpload, List.mem_map] at hj'
    obtain ⟨j, hj, rfl⟩ := hj'
    by_cases hk : j.id = i
    · simp [hk]
    · simp only [if_neg hk] at hid
      exact absurd hid hk
  | err m =>
    rw [hoc] at hj'
    simp only [setUpload, List.mem_map] at hj'
    obtain ⟨j, hj, rfl⟩ := hj'
    by_cases hk : j.id = i
    · simp [hk]
    · simp only [if_neg hk] at hid
      exact absurd hid hk

theorem NotWaiting_tickAux {nowAt : ℕ → ℤ} {oc : ℕ → UploadOutcome} :
    ∀ (l s : List Job) (i : ℕ), NotWaiting s i →
      NotWaiting (tickAux nowAt oc l s).1 i := by
  intro l
  induction l with
  | nil => intro s i h; exact h
  | cons j rest ih =>
    intro s i h
    simp only [tickAux]
    split_ifs with hd
    · exact ih _ i (NotWaiting_dispatchJob h)
    · exact ih s i h

theorem readyFilter_iff (j : Job) : readyFilter j = true ↔
    j.status_render = RenderStatus.success
      ∧ j.status_upload = UploadStatus.waiting_schedule := by
  simp [readyFilter]

theorem not_mem_tick_dispatch {nowAt : ℕ → ℤ} {oc : ℕ → UploadOutcome}
    {s : List Job} {i : ℕ} (h : NotWaiting s i) :
    i ∉ (tick nowAt oc s).2 := by
  intro hmem
  have hsub := tickAux_dispatch_sublist nowAt oc (s.filter readyFilter) s
  have hmem2 : i ∈ (s.filter readyFilter).map Job.id := hsub.subset hmem
  obtain ⟨j, hj, hid⟩ := List.mem_map.mp hmem2
  obtain ⟨hjs, hready⟩ := List.mem_filter.mp hj
  exact h j hjs hid ((readyFilter_iff j).mp hready).2

theorem NotWaiting_after_dispatch {nowAt : ℕ → ℤ} {oc : ℕ → UploadOutcome} :
    ∀ (l s : List Job) (i : ℕ), i ∈ (tickAux nowAt oc l s).2 →
      NotWaiting (tickAux nowAt oc l s).1 i := by
  intro l
  induction l with
  | nil => intro s i h; simp [tickAux] at h
  | cons j rest ih =>
    intro s i h
    simp only [tickAux] at h ⊢
    split_ifs at h ⊢ with hd
    · rcases List.mem_cons.mp h with rfl | h2
      · exact NotWaiting_tickAux rest _ _ (NotWaiting_dispatchJob_self oc s j.id)
      · exact ih _ i h2
    · exact ih s i h

theorem NotWaiting_runTicks_not_mem :
    ∀ (ps : List ((ℕ → ℤ) × (ℕ → UploadOutcome))) (s : List Job) (i : ℕ),
      NotWaiting s i → i ∉ (runTicks ps s).2 := by
  intro ps
  induction ps with
  | nil => intro s i h hmem; simp [runTicks] at hmem
  | cons p ps ih =>
    intro s i h hmem
    simp only [runTicks, List.mem_append] at hmem
    rcases hmem with hmem | hmem
    · exact not_mem_tick_dispatch h hmem
    · exact ih _ i (NotWaiting_tickAux _ s i h) hmem

theorem NoRenderSuccess_setUpload {s : List Job} {i : ℕ}
    (h : NoRenderSuccess s i) {k : ℕ} {u : UploadStatus} {m : String} :
    NoRenderSuccess (setUpload s k u m) i := by
  intro j' hj' hid
  simp only [setUpload, List.mem_map] at hj'
  obtain ⟨j, hj, rfl⟩ := hj'
  by_cases hk : j.id = k
  · simp only [if_pos hk] at hid ⊢
    exact h j hj hid
  · simp only [if_neg hk] at hid ⊢
    exact h j hj hid

theorem NoRenderSuccess_setUploadDone {s : List Job} {i : ℕ}
    (h : NoRenderSuccess s i) {k : ℕ} {v : String} :
    NoRenderSuccess (setUploadDone s k v) i := by
  intro j' hj' hid
  simp only [setUploadDone, List.mem_map] at hj'
  obtain ⟨j, hj, rfl⟩ := hj'
  by_cases hk : j.id = k
  · simp only [if_pos hk] at hid ⊢
    exact h j hj hid
  · simp only [if_neg hk] at hid ⊢
    exact h j hj hid

theorem NoRenderSuccess_dispatchJob {oc : ℕ → UploadOutcome} {s : List Job}
    {i k : ℕ} (h : NoRenderSuccess s i) :
    NoRenderSuccess (dispatchJob oc s k) i := by
  unfold dispatchJob
  cases oc k with
  | ok v => exact NoRenderSuccess_setUploadDone (NoRenderSuccess_setUpload h)
  | err m => exact NoRenderSuccess_setUpload (NoRenderSuccess_setUpload h)

theorem NoRenderSuccess_tickAux {nowAt : ℕ → ℤ} {oc : ℕ → UploadOutcome} :
    ∀ (l s : List Job) (i : ℕ), NoRenderSuccess s i →
      NoRenderSuccess (tickAux nowAt oc l s).1 i := by
  intro l
  induction l with
  | nil => intro s i h; exact h
  | cons j rest ih =>
    intro s i h
    simp only [tickAux]
    split_ifs with hd
    · exact ih _ i (NoRenderSuccess_dispatchJob h)
    · exact ih s i h

theorem not_mem_tick_dispatch_of_no_render {nowAt : ℕ → ℤ}
    {oc : ℕ → UploadOutcome} {s : List Job} {i : ℕ}
    (h : NoRenderSuccess s i) : i ∉ (tick nowAt oc s).2 := by
  intro hmem
  have hsub := tickAux_dispatch_sublist nowAt oc (s.filter readyFilter) s
  have hmem2 : i ∈ (s.filter readyFilter).map Job.id := hsub.subset hmem
  obtain ⟨j, hj, hid⟩ := List.mem_map.mp hmem2
  obtain ⟨hjs, hready⟩ := List.mem_filter.mp hj
  exact h j hjs hid ((readyFilter_iff j).mp hready).1

theorem NoRenderSuccess_runTicks_not_mem :
    ∀ (ps : List ((ℕ → ℤ) × (ℕ → UploadOutcome))) (s : List Job) (i : ℕ),
      NoRenderSuccess s i → i ∉ (runTicks ps s).2 := by
  intro ps
  induction ps with
  | nil => intro s i h hmem; simp [runTicks] at hmem
  | cons p ps ih =>
    intro s i h hmem
    simp only [runTicks, List.mem_append] at hmem
    rcases hmem with hmem | hmem
    · exact not_mem_tick_dispatch_of_no_render h hmem
    · exact ih _ i (NoRenderSuccess_tickAux _ s i h) hmem

theorem tick_count_le_one {nowAt : ℕ → ℤ} {oc : ℕ → UploadOutcome}
    {s : List Job} (h : NodupIds s) (i : ℕ) :
    (tick nowAt oc s).2.count i ≤ 1 := by
  have hsub := tickAux_dispatch_sublist nowAt oc (s.filter readyFilter) s
  have hnd : ((s.filter readyFilter).map Job.id).Nodup :=
    List.Nodup.sublist (List.Sublist.map Job.id (List.filter_sublist s)) h
  have hnd2 : (tick nowAt oc s).2.Nodup := List.Nodup.sublist hsub hnd
  exact List.nodup_iff_count_le_one.mp hnd2 i

theorem runTicks_count (ps : List ((ℕ → ℤ) × (ℕ → UploadOutcome))) :
    ∀ s : List Job, NodupIds s → ∀ i : ℕ, (runTicks ps s).2.count i ≤ 1 := by
  induction ps with
  | nil => intro s _ i; simp [runTicks]
  | cons p ps ih =>
    intro s h i
    simp only [runTicks, List.count_append]
    by_cases hmem : i ∈ (tick p.1 p.2 s).2
    · have h1 : (tick p.1 p.2 s).2.count i ≤ 1 := tick_count_le_one h i
      have h2 : (runTicks ps (tick p.1 p.2 s).1).2.count i = 0 := by
        apply List.count_eq_zero_of_not_mem
        exact NotWaiting_runTicks_not_mem ps _ i
          (NotWaiting_after_dispatch _ s i hmem)
      omega
    · have h1 : (tick p.1 p.2 s).2.count i = 0 :=
        List.count_eq_zero_of_not_mem hmem
      have hnd : NodupIds (tick p.1 p.2 s).1 := by
        unfold NodupIds
        rw [tick_ids]
        exact h
      have h2 := ih _ hnd i
      omega

theorem foldl_applyPush (ps : List Push) (j : Job) :
    ps.foldl applyPush j = { j with progress := (ps.foldl applyPush j).progress } := by
  induction ps generalizing j with
  | nil => rfl
  | cons p ps ih =>
    simp only [List.foldl_cons]
    rw [ih (applyPush j p)]
    simp [applyPush]

/-!
## Time-token parsing lemmas
-/

theorem digitChar_isDigit :
    ∀ d < 10, ((digitChar d).isDigit = true ∧ digitVal (digitChar d) = d) := by
  decide

theorem searchTime_timeLine {h m s f : ℕ} (hh : h < 100) (hm : m < 100)
    (hs : s < 100) (hf : f < 100) :
    searchTime (timeLine h m s f).data = some (h, m, s) := by
  obtain ⟨e1, v1⟩ := digitChar_isDigit (h / 10) (by omega)
  obtain ⟨e2, v2⟩ := digitChar_isDigit (h % 10) (by omega)
  obtain ⟨e3, v3⟩ := digitChar_isDigit (m / 10) (by omega)
  obtain ⟨e4, v4⟩ := digitChar_isDigit (m % 10) (by omega)
  obtain ⟨e5, v5⟩ := digitChar_isDigit (s / 10) (by omega)
  obtain ⟨e6, v6⟩ := digitChar_isDigit (s % 10) (by omega)
  obtain ⟨e7, v7⟩ := digitChar_isDigit (f / 10) (by omega)
  obtain ⟨e8, v8⟩ := digitChar_isDigit (f % 10) (by omega)
  simp only [timeLine, twoDigits, List.cons_append, List.nil_append]
  simp only [searchTime, matchTimeAt]
  simp only [e1, e2, e3, e4, e5, e6, e7, e8]
  simp [v1, v2, v3, v4, v5, v6, v7, v8]
  omega

theorem foldl_applyPush_fields (ps : List Push) (j : Job) :
    (ps.foldl applyPush j).id = j.id
      ∧ (ps.foldl applyPush j).logs = j.logs
      ∧ (ps.foldl applyPush j).status_render = j.status_render
      ∧ (ps.foldl applyPush j).status_upload = j.status_upload
      ∧ (ps.foldl applyPush j).output_path = j.output_path := by
  refine ⟨?_, ?_, ?_, ?_, ?_⟩ <;> rw [foldl_applyPush]

theorem eq_of_mem_of_nodupIds {store : List Job} (h : NodupIds store)
    {a b : Job} (ha : a ∈ store) (hb : b ∈ store) (hid : a.id = b.id) :
    a = b :=
  List.inj_on_of_nodup_map h ha hb hid

/-!
## Claim theorems
-/

section ConcreteEvaluation
attribute [local semireducible] Rat.mul Rat.add Rat.sub Rat.inv

/-- C5 (counterexample): the claim says the pushed percent equals
`min(99, floor(100*cur/target))`.  For the line `time=00:17:24.00`
(`cur = 1044`) with `target = 3600` the worker pushes percent `28`, while
`min(99, floor(100*1044/3600)) = 29`: the double-precision evaluation of
`(1044/3600)*100` is strictly below `29` and `int()` truncates it to `28`. -/
theorem C5_counterexample :
    (linePush 3600 0 60 0 "time=00:17:24.00").map Push.percent
        = Option.some 28
      ∧ min 99 ⌊(100 * 1044 : ℚ) / 3600⌋ = 29 := by
  constructor
  · decide
  · decide

/-- C5 (amended): the pushed percent is
`min(99, int((cur/target)*100))` evaluated in IEEE-754 double precision —
never above `99`, so `100` is never pushed mid-stream — and this can be one
below the exact `floor(100*cur/target)` when `target` divides `100*cur`
(at `cur=1044`, `target=3600` the worker pushes `28`, not `29`).  The ETA
derivation is as claimed: for `target=3600`, elapsed `60`, `cur=120` the
push is percent `3`, speed `2.0`, remaining `1740` s, eta `now + 1740`. -/
theorem C5_percent_eta :
    (∀ cur target : ℕ, 0 < target → pyPercent cur target ≤ 99)
      ∧ pyPercent 1044 3600 = 28
      ∧ linePush 3600 0 60 1700000000 "time=00:02:00.00"
          = Option.some ⟨3, 2, 1740, 1700001740⟩ := by
  refine ⟨fun cur target _ => pyPercent_le cur target, by decide, by decide⟩

theorem C5_percent_eta_witness :
    pyPercent 120 3600 ≤ 99 ∧ pyPercent 1044 3600 = 28 :=
  ⟨C5_percent_eta.1 120 3600 (by decide), C5_percent_eta.2.1⟩

/-- C6 (counterexample): the claim says a `(percent, eta)` update is pushed
iff the line has a parseable time token.  The line `time=00:00:00.75`
parses (to `cur = 0`) but produces no push, because the push sits inside
`if current_sec > 0:` (app.py line 293). -/
theorem C6_counterexample :
    (lineCur "time=00:00:00.75").isSome = true
      ∧ linePush 3600 0 1 0 "time=00:00:00.75" = Option.none := by
  constructor
  · decide
  · decide

/-- C6 (amended): a `(percent, eta)` update is pushed iff the line has a
parseable time token AND the parsed encoded seconds are strictly
positive; lines without a token, and token lines with `cur = 0`, push
nothing. -/
theorem C6_push_iff_positive (target : ℕ) (startT clockAt nowAt : ℚ)
    (line : String) (ht : 0 < target) :
    (linePush target startT clockAt nowAt line).isSome
      ↔ ∃ c, lineCur line = Option.some c ∧ 0 < c := by
  unfold linePush
  cases h : lineCur line with
  | none => simp
  | some cur =>
    by_cases hc : 0 < cur
    · simp [hc]
    · simp [hc]

theorem C6_push_iff_positive_witness :
    (linePush 3600 0 1 0 "time=00:00:01.00").isSome :=
  (C6_push_iff_positive 3600 0 1 0 "time=00:00:01.00" (by decide)).mpr
    ⟨1, by decide, by decide⟩

/-- C9 (counterexample): the claim quantifies over every stream of
diagnostic lines; nothing in the code clamps the percent, so a stream
whose time tokens go backwards produces a decreasing percent sequence
(`[1, 0]` here). -/
theorem C9_counterexample :
    ¬ List.Sorted (· ≤ ·)
        ((renderPushes 3600 0 (fun i => (i:ℚ) + 1) (fun _ => 0)
          ["time=00:01:00.00", "time=00:00:30.00"]).map Push.percent) := by
  decide

/-- C9 (amended): for every stream whose parsed encoded-time values are
non-decreasing (as a real encoder's are), the sequence of pushed
`progress_percent` values is non-decreasing: the percent is a monotone
function of `cur` even in double precision. -/
theorem C9_progress_monotone (target : ℕ) (startT : ℚ) (clock now : ℕ → ℚ)
    (lines : List String)
    (hmono : List.Sorted (· ≤ ·) (lines.filterMap lineCur)) :
    List.Sorted (· ≤ ·)
      ((renderPushes target startT clock now lines).map Push.percent) := by
  rw [renderPushes, renderPushesAux_percent]
  exact List.Pairwise.map _ (fun a b hab => pyPercent_mono hab)
    (hmono.filter _)

theorem C9_progress_monotone_witness :
    List.Sorted (· ≤ ·)
      ((renderPushes 3600 0 (fun i => (i:ℚ) + 1) (fun _ => 0)
        ["time=00:00:30.00", "time=00:01:00.00"]).map Push.percent) :=
  C9_progress_monotone 3600 0 _ _ _ (by decide)

end ConcreteEvaluation

/-- C10: for a diagnostic line with token `HH:MM:SS.ff`, the encoded
seconds used for percent and ETA equal `3600*HH + 60*MM + SS` exactly:
the fractional digits are matched by the pattern but discarded, so two
lines differing only in `.ff` parse to the same whole-second value. -/
theorem C10_fraction_discarded (h m s f g : ℕ) (hh : h < 100) (hm : m < 100)
    (hs : s < 100) (hf : f < 100) (hg : g < 100) :
    lineCur (timeLine h m s f) = Option.some (3600 * h + 60 * m + s)
      ∧ lineCur (timeLine h m s f) = lineCur (timeLine h m s g) := by
  have h1 := searchTime_timeLine hh hm hs hf
  have h2 := searchTime_timeLine hh hm hs hg
  constructor
  · unfold lineCur
    rw [h1]
    rfl
  · unfold lineCur
    rw [h1, h2]

theorem C10_fraction_discarded_witness :
    lineCur (timeLine 0 17 24 12) = Option.some 1044
      ∧ lineCur (timeLine 0 17 24 12) = lineCur (timeLine 0 17 24 99) :=
  C10_fraction_discarded 0 17 24 12 99 (by decide) (by decide) (by decide)
    (by decide) (by decide)

/-- C1: across every sequence of scheduler ticks, each job id is dispatched
to the upload worker at most once: the tick sets `upload_status='uploading'`
before dispatch, so the job no longer satisfies the
`render_status='success' AND upload_status='waiting_schedule'` ready filter
that later ticks query. -/
theorem C1_dispatch_at_most_once
    (ps : List ((ℕ → ℤ) × (ℕ → UploadOutcome))) (store : List Job)
    (h : NodupIds store) (i : ℕ) : (runTicks ps store).2.count i ≤ 1 :=
  runTicks_count ps store h i

theorem C1_dispatch_at_most_once_witness :
    (runTicks [(fun _ => 200, fun _ => UploadOutcome.ok "ytid"),
               (fun _ => 300, fun _ => UploadOutcome.ok "ytid")]
      [sampleReadyJob]).2.count 1 ≤ 1 :=
  C1_dispatch_at_most_once _ [sampleReadyJob] (by unfold NodupIds; decide) 1

/-- C8: at a scheduler tick, a job is dispatched only if its
`scheduled_at` is at or before the clock value the tick read for it;
equivalently, a job whose schedule is still in the future is never
dispatched by that tick. -/
theorem C8_dispatch_only_due (nowAt : ℕ → ℤ) (oc : ℕ → UploadOutcome)
    (store : List Job) (i : ℕ) (h : i ∈ (tick nowAt oc store).2) :
    ∃ j ∈ store, j.id = i ∧ j.scheduled_at ≤ nowAt i := by
  obtain ⟨j, hj, hid, hle⟩ :=
    tickAux_dispatch_mem nowAt oc (store.filter readyFilter) store i h
  exact ⟨j, (List.mem_filter.mp hj).1, hid, hle⟩

theorem C8_dispatch_only_due_witness :
    ∃ j ∈ [sampleReadyJob], j.id = 1
      ∧ j.scheduled_at ≤ (fun _ : ℕ => (200:ℤ)) 1 :=
  C8_dispatch_only_due (fun _ => 200) (fun _ => UploadOutcome.ok "ytid")
    [sampleReadyJob] 1 (by decide)

/-- C3: when the encoder process exits with code zero, the render worker
forces `progress = 100`, sets `render_status='success'` and
`upload_status='waiting_schedule'`, records the output artifact path, and
appends the success log line. -/
theorem C3_zero_exit_success (env : RenderEnv) (dur : ℚ) (j : Job)
    (hff : env.ffmpeg_present = true) (hrc : env.returncode = 0) :
    (process_asmr_video env dur j).1.progress = 100
      ∧ (process_asmr_video env dur j).1.status_render = RenderStatus.success
      ∧ (process_asmr_video env dur j).1.status_upload
          = UploadStatus.waiting_schedule
      ∧ (process_asmr_video env dur j).1.output_path
          = Option.some (output_full_path j.id env.epoch)
      ∧ (process_asmr_video env dur j).1.logs
          = j.logs ++ ["1. Starting Render... " ++ encoding_msg env.has_gpu,
                       "2. Render Finished. Waiting for schedule."] := by
  obtain ⟨hid, hlogs, hr, hu, ho⟩ := foldl_applyPush_fields
    (renderPushes (target_duration_sec dur) env.start_time env.clock env.now
      env.stderr_lines)
    { j with status_render := RenderStatus.rendering,
             logs := j.logs ++
               ["1. Starting Render... " ++ encoding_msg env.has_gpu] }
  simp only [process_asmr_video, hff, hrc, Bool.not_true, ne_eq,
    not_true_eq_false, not_false_eq_true, if_false, if_true, ite_false,
    ite_true]
  simp [hlogs]

theorem C3_zero_exit_success_witness :
    (process_asmr_video sampleEnv 1 sampleJob).1.progress = 100
      ∧ (process_asmr_video sampleEnv 1 sampleJob).1.status_render
          = RenderStatus.success
      ∧ (process_asmr_video sampleEnv 1 sampleJob).1.status_upload
          = UploadStatus.waiting_schedule
      ∧ (process_asmr_video sampleEnv 1 sampleJob).1.output_path
          = Option.some (output_full_path sampleJob.id sampleEnv.epoch)
      ∧ (process_asmr_video sampleEnv 1 sampleJob).1.logs
          = sampleJob.logs
              ++ ["1. Starting Render... " ++ encoding_msg sampleEnv.has_gpu,
                  "2. Render Finished. Waiting for schedule."] :=
  C3_zero_exit_success sampleEnv 1 sampleJob rfl rfl

/-- C4: when the encoder binary is absent at invocation time, the render
worker fails immediately: `render_status='failed'`, no encoder process is
spawned, `upload_status` keeps its `idle` value, and no sequence of
scheduler ticks over any well-formed store containing the row ever
dispatches an upload for that job. -/
theorem C4_encoder_missing (env : RenderEnv) (dur : ℚ) (j : Job)
    (hff : env.ffmpeg_present = false)
    (hidle : j.status_upload = UploadStatus.idle) :
    (process_asmr_video env dur j).1.status_render = RenderStatus.failed
      ∧ (process_asmr_video env dur j).2.2 = false
      ∧ (process_asmr_video env dur j).1.status_upload = UploadStatus.idle
      ∧ ∀ (ps : List ((ℕ → ℤ) × (ℕ → UploadOutcome))) (store : List Job),
          NodupIds store → (process_asmr_video env dur j).1 ∈ store →
          j.id ∉ (runTicks ps store).2 := by
  have hred : process_asmr_video env dur j
      = ({ j with status_render := RenderStatus.failed,
                  logs := j.logs ++ ["Rendering Failed: FFmpeg not found!"] },
         [], false) := by
    simp [process_asmr_video, hff]
  refine ⟨by rw [hred], by rw [hred], by rw [hred]; exact hidle, ?_⟩
  intro ps store hnd hmem
  apply NoRenderSuccess_runTicks_not_mem
  intro j' hj' hid
  have hje : j' = (process_asmr_video env dur j).1 := by
    apply eq_of_mem_of_nodupIds hnd hj' hmem
    rw [hred]
    exact hid
  rw [hje, hred]
  simp

theorem C4_encoder_missing_witness :
    (process_asmr_video sampleEnvNoFfmpeg 1 sampleJob).1.status_render
        = RenderStatus.failed
      ∧ (process_asmr_video sampleEnvNoFfmpeg 1 sampleJob).2.2 = false
      ∧ (process_asmr_video sampleEnvNoFfmpeg 1 sampleJob).1.status_upload
          = UploadStatus.idle
      ∧ ∀ (ps : List ((ℕ → ℤ) × (ℕ → UploadOutcome))) (store : List Job),
          NodupIds store
          → (process_asmr_video sampleEnvNoFfmpeg 1 sampleJob).1 ∈ store
          → sampleJob.id ∉ (runTicks ps store).2 :=
  C4_encoder_missing sampleEnvNoFfmpeg 1 sampleJob rfl rfl

/-- C2: the render worker derives exactly the §4.2 filter chain for each
`watermark_mode`: `none` emits no `-vf` filter at all; `crop_only` emits a
crop keeping the full width and removing the bottom 86-pixel band; `blur`
emits an in-place `delogo` over the bottom 86-pixel band with the frame
size unchanged; `zoom_tl` (the spec's `zoom_top_left`) crops 86 pixels
from the bottom and 150 from the right and then rescales to 1920×1080
with the high-quality lanczos resampler. -/
theorem C2_watermark_effects :
    (vf_args WatermarkMode.none = []
      ∧ ∀ wm : WatermarkMode, wm ≠ WatermarkMode.none →
          vf_args wm = ["-vf", joinComma (video_filters wm)])
    ∧ (parseFilterChain (joinComma (video_filters WatermarkMode.crop_only))
          = Option.some [FilterStep.cropKeepTopLeft 0 86]
        ∧ ∀ w h : ℕ, 86 ≤ h →
            chainDims [FilterStep.cropKeepTopLeft 0 86] (w, h) = (w, h - 86))
    ∧ (parseFilterChain (joinComma (video_filters WatermarkMode.blur))
          = Option.some [FilterStep.obscureBottomBand 86]
        ∧ ∀ d : ℕ × ℕ, chainDims [FilterStep.obscureBottomBand 86] d = d)
    ∧ (parseFilterChain (joinComma (video_filters WatermarkMode.zoom_tl))
          = Option.some [FilterStep.cropKeepTopLeft 150 86,
                         FilterStep.scaleLanczos 1920 1080]
        ∧ ∀ w h : ℕ, chainDims [FilterStep.cropKeepTopLeft 150 86,
            FilterStep.scaleLanczos 1920 1080] (w, h) = (1920, 1080)) := by
  refine ⟨⟨rfl, ?_⟩, ⟨by decide, ?_⟩, ⟨by decide, ?_⟩, ⟨by decide, ?_⟩⟩
  · intro wm h
    cases wm
    · exact absurd rfl h
    · rfl
    · rfl
    · rfl
  · intro w h _
    simp [chainDims, stepDims]
  · intro d
    rfl
  · intro w h
    rfl

theorem C2_watermark_effects_witness :
    chainDims [FilterStep.cropKeepTopLeft 0 86] (1920, 1080) = (1920, 994) :=
  C2_watermark_effects.2.1.2 1920 1080 (by decide)

/-- C7: the encode invocation lists the original video as input 0 and the
external audio track as input 1; with `mute_original` it maps only
input 1's audio stream to the output, and without it it maps the `amix`
of input 0's and input 1's audio with `duration=shortest`, i.e. the mix
truncated to the shorter of the two tracks. -/
theorem C7_audio_routing (v a o : String) (t : ℕ) (wm : WatermarkMode)
    (gpu : Bool) (hv : BenignArg v) (ha : BenignArg a) (ho : BenignArg o)
    (ht : BenignArg (toString t)) :
    (inputsOf (build_cmd v a t wm true (codec_preset gpu).1
        (codec_preset gpu).2 o) = [v, a]
      ∧ audioOutOf (build_cmd v a t wm true (codec_preset gpu).1
          (codec_preset gpu).2 o) = Option.some (AudioOut.single 1))
    ∧ (inputsOf (build_cmd v a t wm false (codec_preset gpu).1
        (codec_preset gpu).2 o) = [v, a]
      ∧ audioOutOf (build_cmd v a t wm false (codec_preset gpu).1
          (codec_preset gpu).2 o) = Option.some (AudioOut.mix2 0 1 true)) := by
  obtain ⟨hv1, hv2, hv3, hv4⟩ := hv
  obtain ⟨ha1, ha2, ha3, ha4⟩ := ha
  obtain ⟨ho1, ho2, ho3, ho4⟩ := ho
  obtain ⟨ht1, ht2, ht3, ht4⟩ := ht
  cases gpu <;> cases wm <;>
    simp [build_cmd, vf_args, video_filters, joinComma, audio_args,
      codec_preset, inputsOf, mapsOf, fcOf, audioOutOf,
      hv1, hv2, hv3, hv4, ha1, ha2, ha3, ha4, ho1, ho2, ho3, ho4,
      ht1, ht2, ht3, ht4] <;>
    decide

theorem C7_audio_routing_witness :
    (inputsOf (build_cmd "video.mp4" "audio.mp3" 3600 WatermarkMode.zoom_tl
        true (codec_preset false).1 (codec_preset false).2 "out.mp4")
        = ["video.mp4", "audio.mp3"]
      ∧ audioOutOf (build_cmd "video.mp4" "audio.mp3" 3600
          WatermarkMode.zoom_tl true (codec_preset false).1
          (codec_preset false).2 "out.mp4")
          = Option.some (AudioOut.single 1))
    ∧ (inputsOf (build_cmd "video.mp4" "audio.mp3" 3600 WatermarkMode.zoom_tl
        false (codec_preset false).1 (codec_preset false).2 "out.mp4")
        = ["video.mp4", "audio.mp3"]
      ∧ audioOutOf (build_cmd "video.mp4" "audio.mp3" 3600
          WatermarkMode.zoom_tl false (codec_preset false).1
          (codec_preset false).2 "out.mp4")
          = Option.some (AudioOut.mix2 0 1 true)) :=
  C7_audio_routing "video.mp4" "audio.mp3" "out.mp4" 3600 WatermarkMode.zoom_tl
    false (by unfold BenignArg; decide) (by unfold BenignArg; decide)
    (by unfold BenignArg; decide) (by unfold BenignArg; decide)
